import Mathlib

/-
Verification of the `Maps` dictionary adapter of the Helix repository
(src/helix/utils/dictutils.py) against its natural-language specification.

The development is a shallow embedding of the Python code:

* `PValue` models plain Python values (strings, ints, bools, None, dicts,
  lists, tuples) as trees.  Python dictionaries are modelled as association
  lists preserving insertion order, which is exactly the observable surface
  of an `OrderedDict` built by successive assignments.
* `MapsT` / `MValue` model a `Maps` object and the values stored in its
  backing store `self._map`.
* A second, heap-based model (`DictHeap` / `NodeHeap`, further below) makes
  Python object identity explicit; it is used for the claims about cycle
  detection, which depend on `id(...)`.

Machine-checked counterparts of CPython behaviour used by the code are
modelled explicitly and documented at each definition (`ast.literal_eval`,
`OrderedDict.pop`, `isinstance(..., dict)`, `str.replace`, `re.finditer`).
-/

set_option autoImplicit false

namespace Helix

/-- Plain Python values, as consumed and produced by `Maps`.  A `dict` is an
ordered association list (CPython dictionaries preserve insertion order).
The modelled fragment has no floats, sets, bytes or non-string keys; these
do not occur in any claim. -/
inductive PValue where
  | str (s : String)
  | int (n : Int)
  | bool (b : Bool)
  | none
  | dict (entries : List (String × PValue))
  | list (items : List PValue)
  | tuple (items : List PValue)

/-- Python exceptions distinguished by the code under verification.
`except NameError` and `except (SyntaxError, ValueError)` are separate
branches in `Maps.__init__` and `Maps.parse_ini`, so the model keeps the
constructors separate. -/
inductive PyExc where
  | valueError
  | nameError
  | keyError
  | typeError
  | attributeError
deriving DecidableEq, Repr

/-- Characters matched by the regex class `[0-9a-zA-Z]` used in
`re.sub('[^0-9a-zA-Z]+', '_', key)`. -/
def isAlnumAZ (c : Char) : Bool :=
  (decide ('0' ≤ c) && decide (c ≤ '9')) ||
  (decide ('a' ≤ c) && decide (c ≤ 'z')) ||
  (decide ('A' ≤ c) && decide (c ≤ 'Z'))

/-- Models `re.sub('[^0-9a-zA-Z]+', '_', key)` on the character list of a
key: every maximal run of characters outside `[0-9a-zA-Z]` is replaced by a
single underscore.  The boolean argument records whether the previous
character belonged to such a run (so that the run contributes only one
underscore). -/
def normChars : Bool → List Char → List Char
  | _, [] => []
  | inRun, c :: rest =>
    if isAlnumAZ c then c :: normChars false rest
    else if inRun then normChars true rest
    else '_' :: normChars true rest

/-- Key normalization performed by `Maps.__init__`:
`key = re.sub('[^0-9a-zA-Z]+', '_', key)`. -/
def normalizeKey (k : String) : String :=
  String.mk (normChars false k.toList)

/-- Decimal digit, ASCII. -/
def isDigitC (c : Char) : Bool :=
  decide ('0' ≤ c) && decide (c ≤ '9')

/-- Value of a list of decimal digits. -/
def digitsToNat (cs : List Char) : Nat :=
  cs.foldl (fun a c => a * 10 + (c.toNat - '0'.toNat)) 0

/-- ASCII whitespace stripped by the CPython parser around a literal. -/
def isWS (c : Char) : Bool :=
  c == ' ' || c == '\t' || c == '\n' || c == '\r'

/-- Inner text of a simply-quoted string literal: the characters must start
and end with the quote `q` and contain neither `q` nor a backslash in
between (escape sequences are outside the modelled fragment). -/
def quotedInner (q : Char) (cs : List Char) : Option (List Char) :=
  if cs.length ≥ 2 && cs.head? == some q && cs.getLast? == some q &&
      ((cs.drop 1).dropLast.all fun c => !(c == q) && !(c == '\\'))
  then some ((cs.drop 1).dropLast)
  else Option.none

/-- Modelled fragment of CPython `ast.literal_eval` on a string argument,
returning `some` on a successful parse and `none` on failure.

Modelled literal forms (each agrees with CPython on its result):
the keywords `True`, `False`, `None`; decimal integers with an optional
single leading `+` or `-` sign; simply-quoted strings (no escape
sequences, no embedded quote characters); all surrounded by optional ASCII
whitespace.  A bare identifier (such as `hello`, `tRue` or `false`) is a
`Name` node, which `ast.literal_eval` rejects — and every other
unrecognised text is rejected as well.

Outside the modelled fragment (treated as parse failures here although
CPython accepts them): floats, complex numbers, underscores in digits,
non-decimal bases, escape sequences, adjacent string-literal
concatenation, and bracketed list/tuple/dict/set literal syntax.  No claim
theorem depends on a string of those forms. -/
def litEvalCore (s : String) : Option PValue :=
  let cs := (s.toList.dropWhile isWS).reverse.dropWhile isWS |>.reverse
  if cs = "True".toList then some (.bool true)
  else if cs = "False".toList then some (.bool false)
  else if cs = "None".toList then some PValue.none
  else if cs ≠ [] && cs.all isDigitC then some (.int (digitsToNat cs))
  else if cs.head? == some '-' && cs.tail ≠ [] && cs.tail.all isDigitC then
    some (.int (-(digitsToNat cs.tail : Int)))
  else if cs.head? == some '+' && cs.tail ≠ [] && cs.tail.all isDigitC then
    some (.int (digitsToNat cs.tail))
  else
    match quotedInner '\'' cs with
    | some inner => some (.str (String.mk inner))
    | Option.none =>
      match quotedInner '"' cs with
      | some inner => some (.str (String.mk inner))
      | Option.none => Option.none

/-- CPython `ast.literal_eval` on a string: returns the parsed value or
raises.  On failure the exception is a `ValueError` (or a `SyntaxError`
for tokenization failures, which the code under verification catches in
the same `except (SyntaxError, ValueError)` clause, so the model collapses
the two).  `ast.literal_eval` never raises `NameError`: a bare identifier
parses to an `ast.Name` node, and `_convert` then raises
`ValueError("malformed node or string: ...")`.  The CPython documentation
lists `ValueError`, `TypeError`, `SyntaxError`, `MemoryError` and
`RecursionError` as the exceptions this function can raise. -/
def litEval (s : String) : Except PyExc PValue :=
  match litEvalCore s with
  | some v => .ok v
  | Option.none => .error .valueError

mutual
/-- A `Maps` object: the `_dynamic` flag and the backing store `_map`
(an `OrderedDict`, modelled as an ordered association list). -/
inductive MapsT where
  | mk (dyn : Bool) (entries : List (String × MValue))

/-- A value held in the backing store of a `Maps` object: either a plain
value stored unchanged (`prim`), a child `Maps` node, or a list rebuilt by
the constructor (whose elements are again stored values). -/
inductive MValue where
  | prim (p : PValue)
  | node (m : MapsT)
  | mlist (items : List MValue)
end

/-- The `_dynamic` field of a `Maps` object. -/
def MapsT.dynamicFlag : MapsT → Bool
  | .mk d _ => d

/-- The `_map` field (backing store) of a `Maps` object. -/
def MapsT.mapOf : MapsT → List (String × MValue)
  | .mk _ m => m

/-- Assignment `od[key] = value` on an ordered dictionary modelled as an
association list: an existing key keeps its position and gets the new
value, a new key is appended at the end. -/
def odSet {α : Type} : List (String × α) → String → α → List (String × α)
  | [], k, v => [(k, v)]
  | (k1, v1) :: rest, k, v =>
    if k1 = k then (k, v) :: rest else (k1, v1) :: odSet rest k v

/-- The trailing `try: self._map[key] = ast.literal_eval(value) ...` of the
constructor loop, applied after the dict/list conversions.  On a string the
literal parse is attempted; `except NameError` would map `"false"`/`"true"`
case-insensitively to booleans (this branch is dead in CPython, see
`litEval`); `except (SyntaxError, ValueError)` keeps the value.  On any
non-string (a converted child node, a rebuilt list, or a non-string plain
value) `ast.literal_eval` raises `ValueError`, so the value is kept. -/
def applyLitEval : MValue → MValue
  | .prim (.str s) =>
    match litEval s with
    | .ok p => .prim p
    | .error .nameError =>
      if s.toLower = "false" then .prim (.bool false)
      else if s.toLower = "true" then .prim (.bool true)
      else .prim (.str s)
    | .error _ => .prim (.str s)
  | other => other

mutual
/-- Per-value processing of the `Maps.__init__` loop on tree-shaped
(identity-free) input: a dict value is recursively constructed as a child
`Maps` with the same `_dynamic` flag; a list value is rebuilt converting
its dict elements; then the `ast.literal_eval` step runs.  On tree-shaped
input the `tracked_ids` registry of the source can never hit (each source
dict object occurs exactly once), so it does not appear here; the
heap-based model below includes it. -/
def processValue (dyn : Bool) : PValue → MValue
  | .dict es => applyLitEval (.node (.mk dyn (constructEntries dyn es [])))
  | .list items => applyLitEval (.mlist (processItems dyn items))
  | other => applyLitEval (.prim other)

/-- The list-rebuilding loop of `Maps.__init__`: dict elements become child
nodes (`self.__class__(item, _dynamic=self._dynamic)`), everything else is
appended unchanged.  Tuples do not reach this loop: the source tests
`isinstance(value, list)` only. -/
def processItems (dyn : Bool) : List PValue → List MValue
  | [] => []
  | .dict es :: rest =>
    .node (.mk dyn (constructEntries dyn es [])) :: processItems dyn rest
  | item :: rest => .prim item :: processItems dyn rest

/-- The entry loop of `Maps.__init__` over the positional dictionary:
normalize each key, process the value, assign into `self._map`. -/
def constructEntries (dyn : Bool) :
    List (String × PValue) → List (String × MValue) → List (String × MValue)
  | [], acc => acc
  | (k, v) :: rest, acc =>
    constructEntries dyn rest (odSet acc (normalizeKey k) (processValue dyn v))
end

/-- Construction `Maps(d, _dynamic=dyn)` from a plain dictionary `d` (the
keyword `_dynamic` sets the flag; `Maps(d)` is `Maps_init true d`).
Tree-shaped input only; see `processValue`. -/
def Maps_init (dyn : Bool) (entries : List (String × PValue)) : MapsT :=
  .mk dyn (constructEntries dyn entries [])

mutual
/-- `Maps.to_dict` on tree-shaped nodes: rebuilds a plain dictionary.  The
source's `id(value) == id(self)` check cannot fire on a tree (no aliasing);
the heap-based model below covers the self-referential case. -/
def MapsT.to_dict : MapsT → PValue
  | .mk _ m => .dict (toDictEntries m)

/-- The entry loop of `Maps.to_dict`. -/
def toDictEntries : List (String × MValue) → List (String × PValue)
  | [] => []
  | (k, v) :: rest => (k, toDictValue v) :: toDictEntries rest

/-- Per-value conversion of `Maps.to_dict`: a child node is converted
recursively; a rebuilt list is converted element-wise; a plain value is
returned unchanged.  (A plain tuple or list stored via `prim` contains
only plain values, never nodes, so the source's element-wise pass over it
rebuilds an equal sequence; returning it unchanged is exact.) -/
def toDictValue : MValue → PValue
  | .prim p => p
  | .node m => m.to_dict
  | .mlist items => .list (toDictItems items)

/-- The sequence loop of `Maps.to_dict`: node elements are converted with
`item.to_dict()`, other elements pass through. -/
def toDictItems : List MValue → List PValue
  | [] => []
  | .node m :: rest => m.to_dict :: toDictItems rest
  | .prim p :: rest => p :: toDictItems rest
  | .mlist l :: rest => .list (toDictItems l) :: toDictItems rest
end

/-- The sentinel attribute name excluded from dynamic auto-creation. -/
def canaryName : String := "_ipython_canary_method_should_not_exist_"

/-- A fresh `self.__class__()`: `Maps()` with no arguments has
`_dynamic = True` (the default set at the top of `__init__`) and an empty
backing store. -/
def emptyMaps : MapsT := .mk true []

/-- Attribute names found on the `Maps` class by normal attribute lookup
(`__getattribute__`): the methods defined in the class body, the helpers
`_get_items` and the abc machinery field `_abc_impl`, plus every dunder
name (all remaining inherited attributes start with a double underscore).
Reading one of these as an attribute returns the bound method / class
attribute instead of falling through to keyed storage. -/
def classAttrs : List String :=
  ["clear", "copy", "empty", "fromkeys", "get", "has_key", "items",
   "iteritems", "iterkeys", "itervalues", "keys", "next", "parse_ini",
   "parse_value", "pop", "popitem", "setdefault", "to_dict", "update",
   "values", "viewitems", "viewkeys", "viewvalues", "_get_items",
   "_abc_impl"]

/-- Whether `old` is an initial segment of the second list. -/
def leadsWith : List Char → List Char → Bool
  | [], _ => true
  | _ :: _, [] => false
  | c :: ps, d :: s => c == d && leadsWith ps s

/-- Whether `name` resolves on the class by normal attribute lookup
(a listed class attribute, or any dunder name — `name.startswith("__")`).
-/
def isClassAttr (name : String) : Bool :=
  classAttrs.contains name || leadsWith ['_', '_'] name.toList

/-- `Maps.__getitem__`: if the name is absent, dynamic mode is on and the
name is not the canary, auto-create `self[name] = self.__class__()`
(a fresh node with the default `_dynamic = True`); then return
`self._map[name]`, raising `KeyError` when still absent. -/
def Maps_getitem (m : MapsT) (name : String) : Except PyExc (MValue × MapsT) :=
  let m1 :=
    if (m.mapOf.lookup name).isNone && m.dynamicFlag && !(name == canaryName) then
      MapsT.mk m.dynamicFlag (odSet m.mapOf name (.node emptyMaps))
    else m
  match m1.mapOf.lookup name with
  | some v => .ok (v, m1)
  | Option.none => .error .keyError

/-- Result of an attribute read on a `Maps` object. -/
inductive AttrRead where
  | field
  | method
  | data (v : MValue)

/-- Attribute access `m.name`: `__getattribute__` first finds the instance
fields `_map`/`_dynamic` and any class attribute; otherwise
`Maps.__getattr__` runs: for the canary it calls the non-existent
`super().__getattr__`, raising `AttributeError`; for anything else it
falls through to `self[name]` (`Maps_getitem`). -/
def Maps_attrAccess (m : MapsT) (name : String) : Except PyExc (AttrRead × MapsT) :=
  if name == "_map" || name == "_dynamic" then .ok (.field, m)
  else if isClassAttr name then .ok (.method, m)
  else if name == canaryName then .error .attributeError
  else
    match Maps_getitem m name with
    | .error e => .error e
    | .ok (v, m1) => .ok (.data v, m1)

/-- Attribute/keyed write of a non-reserved name: `self._map[name] = value`
with no key normalization (`__setattr__` falling through to
`__setitem__`).  The reserved names `_map`/`_dynamic` set the field itself
and are not written by any claim. -/
def Maps_setattr (m : MapsT) (name : String) (v : MValue) : MapsT :=
  MapsT.mk m.dynamicFlag (odSet m.mapOf name v)

/-- Evaluation of a chained attribute assignment `m.n1.n2...nk = value`
under Python reference semantics: each attribute read returns the child
object stored in the parent (auto-created when absent in dynamic mode), so
a mutation of the child is visible from the parent; the model makes that
visibility explicit by re-storing the updated child at the same key. -/
def setChain (m : MapsT) : List String → MValue → Except PyExc MapsT
  | [], _ => .ok m
  | [last], v => .ok (Maps_setattr m last v)
  | name :: rest, v =>
    match Maps_attrAccess m name with
    | .error e => .error e
    | .ok (.data (.node child), m1) =>
      match setChain child rest v with
      | .error e => .error e
      | .ok child1 => .ok (Maps_setattr m1 name (.node child1))
    | .ok (_, _) => .error .attributeError

/-- Evaluation of a chained attribute read `m.n1.n2...nk`, returning the
value and the (possibly mutated, through dynamic auto-creation) object. -/
def readChain (m : MapsT) : List String → Except PyExc (MValue × MapsT)
  | [] => .ok (.node m, m)
  | name :: rest =>
    match Maps_attrAccess m name with
    | .error e => .error e
    | .ok (.data v, m1) =>
      match rest with
      | [] => .ok (v, m1)
      | _ :: _ =>
        match v with
        | .node child =>
          match readChain child rest with
          | .error e => .error e
          | .ok (w, child1) => .ok (w, Maps_setattr m1 name (.node child1))
        | _ => .error .attributeError
    | .ok (_, _) => .error .attributeError

mutual
/-- Python `==` between two plain values, as used by dict comparison.
Dictionaries compare order-insensitively (same size, each key present with
an equal value); sequences compare element-wise.  The int/bool/float
conflation of Python (`1 == True`) is outside the modelled fragment and is
not exercised by any claim. -/
def pyEq : PValue → PValue → Bool
  | .str a, .str b => a == b
  | .int a, .int b => a == b
  | .bool a, .bool b => a == b
  | .none, .none => true
  | .dict a, .dict b => (a.length == b.length) && pyEqEntries b a
  | .list a, .list b => pyEqList a b
  | .tuple a, .tuple b => pyEqList a b
  | _, _ => false

/-- Element-wise Python `==` on sequences. -/
def pyEqList : List PValue → List PValue → Bool
  | [], [] => true
  | x :: xs, y :: ys => pyEq x y && pyEqList xs ys
  | _, _ => false

/-- Each entry of the first dictionary occurs, with an equal value, in
`other`. -/
def pyEqEntries (other : List (String × PValue)) : List (String × PValue) → Bool
  | [] => true
  | (k, v) :: rest =>
    (match other.lookup k with
     | some q => pyEq v q
     | Option.none => false) && pyEqEntries other rest
end

mutual
/-- Python `==` between a value stored in a backing store and a plain
value.  A stored child node compared against a plain dict re-enters
`Maps.__eq__`: `parse_value` leaves a plain (non-`Maps`) argument
untouched, the `isinstance(value, dict)` test succeeds, and the backing
store is compared to the dict; against a plain non-dict the comparison is
`False`. -/
def mvalEqPval : MValue → PValue → Bool
  | .prim p, q => pyEq p q
  | .node n, .dict es => pyMapsDictEq n es
  | .node _, _ => false
  | .mlist items, .list qs => mlistEqPlist items qs
  | .mlist _, _ => false

/-- `self._map == es` for a plain dict `es`: `OrderedDict` compared with a
regular dict is order-insensitive dict equality. -/
def pyMapsDictEq : MapsT → List (String × PValue) → Bool
  | .mk _ m, es => (m.length == es.length) && mentriesEq es m

/-- Each backing-store entry occurs, with an equal value, in `es`. -/
def mentriesEq (es : List (String × PValue)) : List (String × MValue) → Bool
  | [] => true
  | (k, v) :: rest =>
    (match es.lookup k with
     | some q => mvalEqPval v q
     | Option.none => false) && mentriesEq es rest

/-- Element-wise comparison of a rebuilt list against a plain list. -/
def mlistEqPlist : List MValue → List PValue → Bool
  | [], [] => true
  | v :: vs, q :: qs => mvalEqPval v q && mlistEqPlist vs qs
  | _, _ => false
end

/-- The right-hand operand of a comparison with a `Maps` object: either
another `Maps` object or a plain value. -/
inductive EqOperand where
  | node (m : MapsT)
  | plain (p : PValue)

/-- `Maps.parse_value`: a `Maps` argument is unwrapped by reading
`value.map` — the attribute named `map`, not the field `_map`.  `map` is
not a class attribute, so the read falls through to keyed storage: in
dynamic mode an absent `map` key is auto-created as a fresh empty node
(mutating the argument), and with dynamic mode off an absent `map` key
raises `KeyError`.  A non-`Maps` argument is returned unchanged.  Returns
the unwrapped value together with the (possibly mutated) operand. -/
def Maps_parse_value : EqOperand → Except PyExc (MValue × EqOperand)
  | .plain p => .ok (.prim p, .plain p)
  | .node v =>
    match Maps_attrAccess v "map" with
    | .error e => .error e
    | .ok (.data w, v1) => .ok (w, .node v1)
    | .ok (_, _) => .error .attributeError

/-- `Maps.__eq__`: parse the operand, return `False` unless the parsed
value is a genuine dict, else compare the backing store to it. -/
def Maps_eq (u : MapsT) (value : EqOperand) : Except PyExc (Bool × EqOperand) :=
  match Maps_parse_value value with
  | .error e => .error e
  | .ok (pv, value1) =>
    match pv with
    | .prim (.dict es) => .ok (pyMapsDictEq u es, value1)
    | _ => .ok (false, value1)

/-- Result of a delegated comparison on the backing store: CPython returns
`NotImplemented` when `dict` does not support the operation against the
given operand (no `isinstance` guard exists in these methods). -/
inductive CmpRes where
  | notImplemented
  | result (b : Bool)

/-- `Maps.__ne__`: `self._map.__ne__(parse_value(value))`; a dict operand
gives the boolean, anything else gives `NotImplemented`. -/
def Maps_ne (u : MapsT) (value : EqOperand) : Except PyExc (CmpRes × EqOperand) :=
  match Maps_parse_value value with
  | .error e => .error e
  | .ok (pv, value1) =>
    match pv with
    | .prim (.dict es) => .ok (.result (!(pyMapsDictEq u es)), value1)
    | _ => .ok (.notImplemented, value1)

/-- `Maps.__lt__`: `self._map.__lt__(parse_value(value))`; `dict` defines
no ordering, so the delegated call always returns `NotImplemented` — but
`parse_value` has already run on the operand. -/
def Maps_lt (u : MapsT) (value : EqOperand) : Except PyExc (CmpRes × EqOperand) :=
  match Maps_parse_value value with
  | .error e => .error e
  | .ok (_, value1) =>
    let _ := u
    .ok (.notImplemented, value1)

/-- `Maps.__le__`: same shape as `Maps_lt`. -/
def Maps_le (u : MapsT) (value : EqOperand) : Except PyExc (CmpRes × EqOperand) :=
  Maps_lt u value

/-- `Maps.__gt__`: same shape as `Maps_lt`. -/
def Maps_gt (u : MapsT) (value : EqOperand) : Except PyExc (CmpRes × EqOperand) :=
  Maps_lt u value

/-- `Maps.__ge__`: same shape as `Maps_lt`. -/
def Maps_ge (u : MapsT) (value : EqOperand) : Except PyExc (CmpRes × EqOperand) :=
  Maps_lt u value

/-- Deletion of the first entry with the given key from an ordered
association list (`del od[key]`). -/
def odErase : List (String × MValue) → String → List (String × MValue)
  | [], _ => []
  | (k1, v1) :: rest, k => if k1 = k then rest else (k1, v1) :: odErase rest k

/-- CPython `OrderedDict.pop`: the signature is `pop(key, default?)`, so a
call with no arguments raises
`TypeError: pop() missing required argument 'key' (pos 1)`; with a key it
removes and returns the value, returns the default when the key is absent,
and raises `KeyError` when there is no default either. -/
def odPop (m : List (String × MValue)) :
    Option String → Option MValue → Except PyExc (MValue × List (String × MValue))
  | Option.none, _ => .error .typeError
  | some k, dflt =>
    match m.lookup k with
    | some v => .ok (v, odErase m k)
    | Option.none =>
      match dflt with
      | some d => .ok (d, m)
      | Option.none => .error .keyError

/-- `Maps.pop(key, default)`: the body is `return self._map.pop()` — the
received `key` and `default` are not forwarded to the backing store. -/
def Maps_pop (m : MapsT) (key : String) (default : Option MValue) :
    Except PyExc (MValue × MapsT) :=
  let _ := key
  let _ := default
  match odPop m.mapOf Option.none Option.none with
  | .error e => .error e
  | .ok (v, m1) => .ok (v, .mk m.dynamicFlag m1)

/-- The positional argument accepted by the `Maps` constructor. -/
inductive CtorArg where
  | dict (entries : List (String × PValue))
  | mapsObj (m : MapsT)

/-- The constructor with its argument type check: `Maps` subclasses
`MutableMapping`, not `dict`, so `isinstance(dictionary, dict)` is false
for a `Maps` instance and the constructor raises `ValueError`. -/
def Maps_init_checked (dyn : Bool) : CtorArg → Except PyExc MapsT
  | .dict es => .ok (Maps_init dyn es)
  | .mapsObj _ => .error .valueError

/-- `Maps.__copy__` (also `Maps.copy`): `return self.__class__(self)` —
the instance itself is passed as the positional argument. -/
def Maps_copy (m : MapsT) : Except PyExc MapsT :=
  Maps_init_checked true (.mapsObj m)

/-- `Maps.__deepcopy__`: `return self.copy()`. -/
def Maps_deepcopy (m : MapsT) : Except PyExc MapsT :=
  Maps_copy m

/-- Process environment for variable substitution: name/value pairs. -/
abbrev EnvT := List (String × String)

/-- Indices of every occurrence of the character in the list, starting at
offset `i` (models the left-to-right scan of `re.finditer("&", s)`). -/
def ampIdx : List Char → Nat → List Nat
  | [], _ => []
  | c :: rest, i =>
    if c = '&' then i :: ampIdx rest (i + 1) else ampIdx rest (i + 1)

/-- The `(m.start(0), m.end(0))` pairs of `re.finditer("&", s)`: for the
one-character pattern each match spans `(i, i + 1)`. -/
def ampMatches (s : List Char) : List (Nat × Nat) :=
  (ampIdx s 0).map (fun i => (i, i + 1))

/-- CPython `str.replace(old, new)`: every non-overlapping occurrence of
`old`, scanned left to right, is replaced by `new`; with an empty `old`,
`new` is inserted at every position. -/
def replaceAll (old new : List Char) : List Char → List Char
  | [] => if old.isEmpty then new else []
  | c :: rest =>
    if old.isEmpty then new ++ c :: replaceAll old new rest
    else if leadsWith old (c :: rest) then
      new ++ replaceAll old new ((c :: rest).drop old.length)
    else c :: replaceAll old new rest
termination_by s => s.length
decreasing_by
  all_goals simp_all only [List.length_drop, List.length_cons, not_false_eq_true]
  all_goals try omega
  rename_i h _
  cases old with
  | nil => simp [List.isEmpty] at h
  | cons o os => simp only [List.length_cons]; omega

/-- The substitution loop of `Maps.parse_ini`: with `i` fixed at 0,
`matches.pop(i + 1)` then `matches.pop(i)` consume the first two match
positions, so the loop walks the precomputed positions two at a time.  The
span `option_value[index_start:index_end]` is cut from the *current*
string with the positions computed on the *original* string; its interior
`sub[1:-1]` is looked up in the environment, a hit replaces every
occurrence of the span (`str.replace`), a `KeyError` is passed over, and
the loop breaks on `IndexError` when fewer than two positions remain. -/
def substLoop (env : EnvT) : List (Nat × Nat) → List Char → List Char
  | (s1, _) :: (_, e2) :: rest, ov =>
    let sub := (ov.drop s1).take (e2 - s1)
    match env.lookup (String.mk ((sub.drop 1).dropLast)) with
    | some rep => substLoop env rest (replaceAll sub rep.toList ov)
    | Option.none => substLoop env rest ov
  | _, ov => ov

/-- Environment-variable substitution applied by `Maps.parse_ini` to one
option string: the loop only runs when the number of `&` occurrences is
positive and even. -/
def substEnv (env : EnvT) (ov : List Char) : List Char :=
  let ms := ampMatches ov
  if ms.length > 0 && ms.length % 2 == 0 then substLoop env ms ov else ov

/-- The scalar coercion applied by `Maps.parse_ini` to an option string
(identical `try/except` chain to the constructor's, see `applyLitEval`):
parse the literal; on the dead `NameError` branch map `false`/`true`
case-insensitively to booleans; otherwise keep the string. -/
def coerceStr (s : String) : PValue :=
  match litEval s with
  | .ok p => p
  | .error .nameError =>
    if s.toLower = "false" then .bool false
    else if s.toLower = "true" then .bool true
    else .str s
  | .error _ => .str s

/-- `Maps.parse_ini` on a configuration-sections object (`to_maps=False`):
build one entry per section; substitute environment variables into each
option string; then the coercion loop runs `coerceStr` on every (string)
option value of every section dict (the recursive call on each section
dict performs the inner coercion). -/
def parse_ini (env : EnvT) (cfg : List (String × List (String × String))) :
    List (String × List (String × PValue)) :=
  cfg.map (fun sec =>
    (sec.1, sec.2.map (fun opt =>
      (opt.1, coerceStr (String.mk (substEnv env opt.2.toList))))))

/-
Identity-aware model.  Python object identity (`id(...)`) is what the
`tracked_ids` registry of `Maps.__init__` and the `id(value) == id(self)`
test of `Maps.to_dict` observe, so the claims about repeated/cyclic source
dictionaries are stated over explicit heaps: a source dictionary object is
an address into a `DictHeap`, a constructed `Maps` object is an address
into a `NodeHeap`.  Recursion is fuel-bounded: a `none` result at every
fuel models a construction that never terminates.
-/

/-- A value stored in a source dictionary of the identity-aware model:
scalars, a reference to a dictionary object (`dref`), lists and tuples. -/
inductive HVal where
  | str (s : String)
  | int (n : Int)
  | bool (b : Bool)
  | none
  | dref (a : Nat)
  | hlist (items : List HVal)
  | htuple (items : List HVal)

/-- A heap of source dictionary objects; an address is a list index. -/
abbrev DictHeap := List (List (String × HVal))

/-- A value stored in a constructed node of the identity-aware model: a
plain value kept unchanged, a reference to a constructed node, or a
rebuilt list. -/
inductive NVal where
  | raw (v : HVal)
  | nref (a : Nat)
  | nlist (items : List NVal)

/-- A constructed `Maps` object: its `_dynamic` flag and `_map` store. -/
structure NodeObj where
  dyn : Bool
  entries : List (String × NVal)

/-- A heap of constructed `Maps` objects. -/
abbrev NodeHeap := List NodeObj

/-- `self._map[key] = value` for the node at address `a`. -/
def heapSet (nh : NodeHeap) (a : Nat) (k : String) (v : NVal) : NodeHeap :=
  match nh.get? a with
  | some node => nh.set a ⟨node.dyn, odSet node.entries k v⟩
  | Option.none => nh

/-- The `ast.literal_eval` step of the constructor loop on heap values
(same `try/except` chain as `applyLitEval`): only a raw string is ever
parsed successfully; node references, rebuilt lists and all other raw
values make `ast.literal_eval` raise `ValueError` and are kept. -/
def applyLitEvalH : NVal → NVal
  | .raw (.str s) =>
    match litEval s with
    | .ok (.str t) => .raw (.str t)
    | .ok (.int n) => .raw (.int n)
    | .ok (.bool b) => .raw (.bool b)
    | .ok .none => .raw .none
    | .ok _ => .raw (.str s)
    | .error .nameError =>
      if s.toLower = "false" then .raw (.bool false)
      else if s.toLower = "true" then .raw (.bool true)
      else .raw (.str s)
    | .error _ => .raw (.str s)
  | other => other

mutual
/-- `Maps.__init__` on the identity-aware model, constructing the
dictionary object at `addr`.  A fresh node is allocated first (`self`
exists before the loop runs), and the local registry `tracked_ids` starts
as the singleton `{id(dictionary): self}` — it is created anew by every
constructor invocation, so it is not a parameter.  `fuel` bounds the
recursion depth; `none` at every fuel models non-terminating recursion. -/
def constructH : Nat → DictHeap → Nat → Bool → NodeHeap → Option (Nat × NodeHeap)
  | 0, _, _, _, _ => Option.none
  | fuel + 1, dh, addr, dyn, nh =>
    match dh.get? addr with
    | Option.none => Option.none
    | some entries =>
      match constructGo fuel dh dyn nh.length entries [(addr, nh.length)]
          (nh ++ [⟨dyn, []⟩]) with
      | Option.none => Option.none
      | some nh1 => some (nh.length, nh1)
termination_by f _ _ _ _ => (f, 0)
decreasing_by
  all_goals simp_wf
  all_goals omega

/-- The entry loop of `Maps.__init__` on the identity-aware model: keys
are normalized; a dict-object value is looked up in `tracked_ids` — a hit
links the already-constructed node, a miss constructs a child (with the
parent's `_dynamic`) and registers it; a list value is rebuilt; the
literal-eval step runs; the result is assigned into the node `selfA`. -/
def constructGo (fuel : Nat) (dh : DictHeap) (dyn : Bool) (selfA : Nat) :
    List (String × HVal) → List (Nat × Nat) → NodeHeap → Option NodeHeap
  | [], _, nh => some nh
  | (k, v) :: rest, tracked, nh =>
    match v with
    | .dref a =>
      match tracked.lookup a with
      | some n =>
        constructGo fuel dh dyn selfA rest tracked
          (heapSet nh selfA (normalizeKey k) (applyLitEvalH (.nref n)))
      | Option.none =>
        match constructH fuel dh a dyn nh with
        | Option.none => Option.none
        | some (n, nh1) =>
          constructGo fuel dh dyn selfA rest (tracked ++ [(a, n)])
            (heapSet nh1 selfA (normalizeKey k) (applyLitEvalH (.nref n)))
    | .hlist items =>
      match constructList fuel dh dyn items nh with
      | Option.none => Option.none
      | some (vals, nh1) =>
        constructGo fuel dh dyn selfA rest tracked
          (heapSet nh1 selfA (normalizeKey k) (applyLitEvalH (.nlist vals)))
    | other =>
      constructGo fuel dh dyn selfA rest tracked
        (heapSet nh selfA (normalizeKey k) (applyLitEvalH (.raw other)))
termination_by es _ _ => (fuel, sizeOf es)
decreasing_by
  all_goals simp_wf
  all_goals omega

/-- The list-rebuilding loop of `Maps.__init__` on the identity-aware
model: dict-object elements are constructed directly
(`self.__class__(item, _dynamic=self._dynamic)`) — without consulting or
updating `tracked_ids` — and other elements pass through unchanged. -/
def constructList (fuel : Nat) (dh : DictHeap) (dyn : Bool) :
    List HVal → NodeHeap → Option (List NVal × NodeHeap)
  | [], nh => some ([], nh)
  | .dref a :: rest, nh =>
    match constructH fuel dh a dyn nh with
    | Option.none => Option.none
    | some (n, nh1) =>
      match constructList fuel dh dyn rest nh1 with
      | Option.none => Option.none
      | some (vals, nh2) => some (.nref n :: vals, nh2)
  | item :: rest, nh =>
    match constructList fuel dh dyn rest nh with
    | Option.none => Option.none
    | some (vals, nh1) => some (.raw item :: vals, nh1)
termination_by items _ => (fuel, sizeOf items)
decreasing_by
  all_goals simp_wf
  all_goals omega
end

/-- `new_dict[key] = value` for the plain dictionary at address `a` of the
output heap. -/
def outSet (oh : DictHeap) (a : Nat) (k : String) (v : HVal) : DictHeap :=
  match oh.get? a with
  | some entries => oh.set a (odSet entries k v)
  | Option.none => oh

mutual
/-- `Maps.to_dict` on the identity-aware model, converting the node at
`addr`.  A fresh empty output dictionary (`new_dict = {}`) is allocated
first; the entry loop then fills it.  `fuel` bounds the recursion depth
(the source has no cycle protection beyond the direct
`id(value) == id(self)` test). -/
def to_dictH : Nat → NodeHeap → Nat → DictHeap → Option (Nat × DictHeap)
  | 0, _, _, _ => Option.none
  | fuel + 1, nh, addr, oh =>
    match nh.get? addr with
    | Option.none => Option.none
    | some node =>
      match toDictGoH fuel nh addr oh.length node.entries (oh ++ [[]]) with
      | Option.none => Option.none
      | some oh1 => some (oh.length, oh1)
termination_by f _ _ _ => (f, 0)
decreasing_by
  all_goals simp_wf
  all_goals omega

/-- The entry loop of `Maps.to_dict` on the identity-aware model: a node
reference equal to `self` becomes a reference to the output dictionary
under construction (`value = new_dict`); any other node reference is
converted recursively; a rebuilt list is converted element-wise; a raw
value passes through unchanged. -/
def toDictGoH (fuel : Nat) (nh : NodeHeap) (selfA : Nat) (selfO : Nat) :
    List (String × NVal) → DictHeap → Option DictHeap
  | [], oh => some oh
  | (k, v) :: rest, oh =>
    match v with
    | .nref a =>
      if a = selfA then
        toDictGoH fuel nh selfA selfO rest (outSet oh selfO k (.dref selfO))
      else
        match to_dictH fuel nh a oh with
        | Option.none => Option.none
        | some (o, oh1) =>
          toDictGoH fuel nh selfA selfO rest (outSet oh1 selfO k (.dref o))
    | .nlist items =>
      match toDictListH fuel nh items oh with
      | Option.none => Option.none
      | some (vals, oh1) =>
        toDictGoH fuel nh selfA selfO rest (outSet oh1 selfO k (.hlist vals))
    | .raw w =>
      toDictGoH fuel nh selfA selfO rest (outSet oh selfO k w)
termination_by es _ => (fuel, sizeOf es)
decreasing_by
  all_goals simp_wf
  all_goals omega

/-- The sequence loop of `Maps.to_dict` on the identity-aware model: node
elements are converted with `item.to_dict()` — the loop performs no
`id(item) == id(self)` test — and other elements pass through. -/
def toDictListH (fuel : Nat) (nh : NodeHeap) :
    List NVal → DictHeap → Option (List HVal × DictHeap)
  | [], oh => some ([], oh)
  | .nref a :: rest, oh =>
    match to_dictH fuel nh a oh with
    | Option.none => Option.none
    | some (o, oh1) =>
      match toDictListH fuel nh rest oh1 with
      | Option.none => Option.none
      | some (vals, oh2) => some (.dref o :: vals, oh2)
  | .raw w :: rest, oh =>
    match toDictListH fuel nh rest oh with
    | Option.none => Option.none
    | some (vals, oh1) => some (w :: vals, oh1)
  | .nlist l :: rest, oh =>
    match toDictListH fuel nh l oh with
    | Option.none => Option.none
    | some (vals, oh1) =>
      match toDictListH fuel nh rest oh1 with
      | Option.none => Option.none
      | some (vals2, oh2) => some (.hlist vals :: vals2, oh2)
termination_by items _ => (fuel, sizeOf items)
decreasing_by
  all_goals simp_wf
  all_goals omega
end

/-- An unquoted bare identifier over `[0-9A-Za-z_]` (not starting with a
digit) other than the keyword constants `True`/`False`/`None`.  Such a
string parses to an `ast.Name` node and `ast.literal_eval` rejects it
with `ValueError`, so the scalar-coercion rule can never turn it into a
different value — it is the claim's example of a value "not coercible to
a different type" ("already-non-numeric words").  This syntactic class is
used as the round-trip hypothesis on string values because my modelled
literal fragment is complete on it (see `litEvalCore_isBareWord`), which
keeps the round-trip theorem sound for the real program. -/
def isBareWord (s : String) : Bool :=
  s.toList ≠ [] &&
  s.toList.all (fun c => isAlnumAZ c || c == '_') &&
  (match s.toList.head? with
   | some c => !(isDigitC c)
   | Option.none => false) &&
  !(s == "True") && !(s == "False") && !(s == "None")

mutual
/-- The round-trip hypothesis on a dictionary value: a string must be a
bare identifier word, which the scalar-coercion rule provably leaves
unchanged (the literal parse fails with `ValueError`, and the
case-insensitive `false`/`true` mapping sits in the dead `NameError`
branch); a nested dictionary must satisfy the hypothesis recursively;
dictionary elements of a list are converted, so they must satisfy it as
well, while its other elements — and a tuple wholesale — pass through
untouched and need no condition.  Non-string scalars always round-trip.
-/
def goodVal : PValue → Bool
  | .str s => isBareWord s
  | .dict es => goodEntries es
  | .list items => goodItems items
  | .tuple _ => true
  | .int _ => true
  | .bool _ => true
  | .none => true

/-- Round-trip hypothesis on list elements: only dictionary elements are
converted by the constructor, so only they carry a condition. -/
def goodItems : List PValue → Bool
  | [] => true
  | .dict es :: rest => goodEntries es && goodItems rest
  | _ :: rest => goodItems rest

/-- Round-trip hypothesis on the entries of a dictionary: every key is
already normalized (a fixed point of `normalizeKey`, i.e. only characters
of `[0-9A-Za-z]` and underscores with no run of consecutive
non-alphanumerics), keys are pairwise distinct (every genuine Python dict
satisfies this; the association-list model must state it), and every value
satisfies `goodVal`. -/
def goodEntries : List (String × PValue) → Bool
  | [] => true
  | (k, v) :: rest =>
    (normalizeKey k == k) && rest.all (fun e => !(e.1 == k)) &&
      goodVal v && goodEntries rest
end

/-- Whether a stored value is a sequence that still contains an
unconverted plain-dictionary element.  The claim about sequence
conversion asserts that construction replaces every dictionary element of
a list or tuple by a child node, so a stored value on which this
predicate holds refutes it. -/
def rawDictElement : MValue → Bool
  | .prim (.tuple items) =>
    items.any (fun it => match it with | .dict _ => true | _ => false)
  | .prim (.list items) =>
    items.any (fun it => match it with | .dict _ => true | _ => false)
  | _ => false

/-- The node produced by executing `m.a.b.c = 1` on `m = Maps({})`:
auto-vivified chain of dynamic nodes with the value at the end. -/
def chainExample : MapsT :=
  .mk true [("a", .node (.mk true [("b", .node (.mk true [("c", .prim (.int 1))]))]))]

/-- A key that fails to look up is distinct from every key in the list. -/
theorem lookup_none_forall {α : Type} (k : String) (l : List (String × α))
    (h : l.lookup k = Option.none) : ∀ e ∈ l, e.1 ≠ k := by
  induction l with
  | nil => simp
  | cons hd tl ih =>
    obtain ⟨k1, v1⟩ := hd
    intro e he
    rcases List.mem_cons.mp he with rfl | hmem
    · intro hk
      subst hk
      simp [List.lookup] at h
    · by_cases hb : k == k1
      · simp [List.lookup, hb] at h
      · exact ih (by simpa [List.lookup, hb] using h) e hmem

/-- Assignment of a fresh key appends the entry at the end. -/
theorem odSet_append {α : Type} (m : List (String × α)) (k : String) (v : α)
    (h : ∀ e ∈ m, e.1 ≠ k) : odSet m k v = m ++ [(k, v)] := by
  induction m with
  | nil => rfl
  | cons hd tl ih =>
    obtain ⟨k1, v1⟩ := hd
    have h1 : k1 ≠ k := h (k1, v1) (List.mem_cons_self _ _)
    simp only [odSet, if_neg h1, List.cons_append, List.cons.injEq, true_and]
    exact ih (fun e he => h e (List.mem_cons_of_mem _ he))

/-- Reading back the key just assigned returns the assigned value. -/
theorem lookup_odSet_self {α : Type} (m : List (String × α)) (k : String) (v : α) :
    (odSet m k v).lookup k = some v := by
  induction m with
  | nil => simp [odSet, List.lookup]
  | cons hd tl ih =>
    obtain ⟨k1, v1⟩ := hd
    by_cases hk : k1 = k
    · subst hk
      simp [odSet, List.lookup]
    · simp only [odSet, if_neg hk, List.lookup]
      have : (k == k1) = false := by
        exact beq_eq_false_iff_ne.mpr (Ne.symm hk)
      simp [this, ih]

/-- C2.  Code bug: equality between two nodes is broken by `parse_value`.
`Maps.parse_value` reads the attribute `map` of the right operand — the
data key `map`, not the field `_map`.  On a fresh dynamic node the read
auto-creates an empty child node at the key `map` and returns that node,
`isinstance(value, dict)` is then false, and `__eq__` returns `False`:
two nodes constructed from the same source dictionary do not compare
equal (first conjunct, with the mutated right operand made explicit).
The comparison against the backing store works only when the right
operand is already a plain dict (second conjunct), as the docstring of
`parse_value` intended for unwrapped nodes. -/
theorem c2_parse_value_breaks_node_equality :
    Maps_eq (Maps_init true [("a", .int 1)]) (.node (Maps_init true [("a", .int 1)]))
      = .ok (false, .node (.mk true [("a", .prim (.int 1)), ("map", .node emptyMaps)])) ∧
    Maps_eq (Maps_init true [("a", .int 1)]) (.plain (.dict [("a", .int 1)]))
      = .ok (true, .plain (.dict [("a", .int 1)])) :=
  ⟨rfl, rfl⟩

/-- C3.  Code bug: `Maps.pop` calls `self._map.pop()` with no arguments,
so for every node, every requested key and every default it raises
`TypeError` — it never removes the key and never returns the default. -/
theorem c3_pop_always_type_error (m : MapsT) (key : String) (default : Option MValue) :
    Maps_pop m key default = .error .typeError :=
  rfl

/-- C4.  Code bug: `copy()` and `deepCopy()` never succeed.  `__copy__`
passes the `Maps` instance itself to the constructor, whose
`isinstance(dictionary, dict)` check rejects it (a `MutableMapping`
subclass is not a `dict`), raising `ValueError`; `__deepcopy__` delegates
to `copy`, so the two operations do have identical effect — they both
fail. -/
theorem c4_copy_always_value_error (m : MapsT) :
    Maps_copy m = .error .valueError ∧ Maps_deepcopy m = Maps_copy m :=
  ⟨rfl, rfl⟩

/-- C5.  Code bug: the case-insensitive `false`/`true` coercion is dead
code.  `ast.literal_eval` never raises `NameError` (a bare identifier
raises `ValueError`), so the branch that would map `"tRue"`/`"false"` to
booleans is unreachable, both in the constructor and in `parse_ini`: such
strings are stored unchanged, contradicting the claim and the docstring
of `parse_ini`. -/
theorem c5_bare_identifier_coercion_dead :
    (∀ s, litEval s ≠ .error .nameError) ∧
    (Maps_init true [("flag", .str "tRue")]).mapOf = [("flag", .prim (.str "tRue"))] ∧
    (Maps_init true [("flag", .str "false")]).mapOf = [("flag", .prim (.str "false"))] ∧
    coerceStr "tRue" = .str "tRue" ∧
    coerceStr "FALSE" = .str "FALSE" ∧
    parse_ini [] [("s1", [("flag", "tRue")])] = [("s1", [("flag", .str "tRue")])] := by
  refine ⟨fun s => ?_, rfl, rfl, rfl, rfl, rfl⟩
  cases h : litEvalCore s <;> simp [litEval, h]

/-- C8 counterexample: a tuple value is not rebuilt by construction.  For
the source dictionary with the tuple value `({"a": 1},)` the stored value
is the original tuple, whose dictionary element is still a plain
dictionary — not a recursively constructed child node as the claim
states. -/
theorem c8_tuple_not_converted :
    (Maps_init true [("t", .tuple [.dict [("a", .int 1)]])]).mapOf
      = [("t", .prim (.tuple [.dict [("a", .int 1)]]))] ∧
    rawDictElement (.prim (.tuple [.dict [("a", .int 1)]])) = true :=
  ⟨rfl, rfl⟩

/-- C8 amended: only lists are rebuilt.  For every list value,
construction rebuilds a list in which every dictionary element is
replaced by a recursively constructed child node inheriting the
dynamic-mode setting and every other element passes through unchanged;
a tuple value is stored entirely unchanged (`isinstance(value, list)`
does not match tuples), leaving its dictionary elements unconverted. -/
theorem c8_sequence_conversion_amended (dyn : Bool) (items : List PValue) :
    processValue dyn (.list items)
      = .mlist (items.map (fun item =>
          match item with
          | .dict es => .node (.mk dyn (constructEntries dyn es []))
          | other => .prim other)) ∧
    processValue dyn (.tuple items) = .prim (.tuple items) := by
  constructor
  · show applyLitEval (.mlist (processItems dyn items)) = _
    have ha : ∀ x : List MValue, applyLitEval (.mlist x) = .mlist x := fun _ => rfl
    have h : ∀ l : List PValue, processItems dyn l
        = l.map (fun item =>
            match item with
            | .dict es => .node (.mk dyn (constructEntries dyn es []))
            | other => .prim other) := by
      intro l
      induction l with
      | nil => rfl
      | cons hd tl ih => cases hd <;> simp [processItems, ih]
    rw [ha, h]
  · rfl

/-- C10.  Comparison mutates a fresh dynamic right operand: every one of
the six comparisons calls `parse_value`, whose read of the attribute
`map` auto-creates an empty child node under the new key `map` in the
dynamic operand; the parsed value is that node, not a dict, so `==`
returns `False`, `!=` delegates to `NotImplemented`, and the four
ordering comparisons delegate to the dict default, also
`NotImplemented`. -/
theorem c10_comparison_mutates_operand (u v : MapsT)
    (hdyn : v.dynamicFlag = true) (habs : v.mapOf.lookup "map" = Option.none) :
    Maps_eq u (.node v)
      = .ok (false, .node (.mk true (v.mapOf ++ [("map", .node emptyMaps)]))) ∧
    Maps_ne u (.node v)
      = .ok (.notImplemented, .node (.mk true (v.mapOf ++ [("map", .node emptyMaps)]))) ∧
    Maps_lt u (.node v)
      = .ok (.notImplemented, .node (.mk true (v.mapOf ++ [("map", .node emptyMaps)]))) ∧
    Maps_le u (.node v)
      = .ok (.notImplemented, .node (.mk true (v.mapOf ++ [("map", .node emptyMaps)]))) ∧
    Maps_gt u (.node v)
      = .ok (.notImplemented, .node (.mk true (v.mapOf ++ [("map", .node emptyMaps)]))) ∧
    Maps_ge u (.node v)
      = .ok (.notImplemented, .node (.mk true (v.mapOf ++ [("map", .node emptyMaps)]))) := by
  obtain ⟨vd, vm⟩ := v
  simp only [MapsT.dynamicFlag] at hdyn
  subst hdyn
  simp only [MapsT.mapOf] at habs ⊢
  have hset : odSet vm "map" (MValue.node emptyMaps)
      = vm ++ [("map", .node emptyMaps)] :=
    odSet_append _ _ _ (lookup_none_forall _ _ habs)
  have hgi : Maps_getitem (.mk true vm) "map"
      = .ok (.node emptyMaps, .mk true (vm ++ [("map", .node emptyMaps)])) := by
    simp only [Maps_getitem, MapsT.mapOf, MapsT.dynamicFlag, habs, Option.isNone_none,
      Bool.true_and]
    rw [if_pos (by decide), lookup_odSet_self, hset]
  have hacc : Maps_attrAccess (.mk true vm) "map"
      = .ok (.data (.node emptyMaps), .mk true (vm ++ [("map", .node emptyMaps)])) := by
    rw [Maps_attrAccess]
    rw [if_neg (by decide), if_neg (by decide), if_neg (by decide), hgi]
  have hpv : Maps_parse_value (.node (.mk true vm))
      = .ok (.node emptyMaps, .node (.mk true (vm ++ [("map", .node emptyMaps)]))) := by
    rw [Maps_parse_value, hacc]
  refine ⟨?_, ?_, ?_, ?_, ?_, ?_⟩ <;>
    simp [Maps_eq, Maps_ne, Maps_lt, Maps_le, Maps_gt, Maps_ge, hpv]

/-- Witness for C10 at concrete nodes. -/
theorem c10_comparison_mutates_operand_witness :
    Maps_eq (.mk true [("a", .prim (.int 1))]) (.node (.mk true [("a", .prim (.int 1))]))
      = .ok (false, .node (.mk true [("a", .prim (.int 1)), ("map", .node emptyMaps)])) :=
  (c10_comparison_mutates_operand (.mk true [("a", .prim (.int 1))])
    (.mk true [("a", .prim (.int 1))]) rfl rfl).1

/-- C9.  Dynamic-mode read: for a non-reserved name absent from the
backing store, a keyed or attribute read auto-creates and returns an
empty child node at that name when dynamic mode is enabled (the new node
is appended under the name; its `_dynamic` is the constructor default
`True`, equal to the parent's enabled setting), and fails with `KeyError`
when dynamic mode is disabled.  The attribute-read parts additionally
assume the name is not found on the class by normal attribute lookup.
The last two conjuncts run the chained example: `construct({}).a.b.c = 1`
followed by reading `.a.b.c` returns `1`. -/
theorem c9_dynamic_read (m : MapsT) (name : String)
    (habs : m.mapOf.lookup name = Option.none)
    (hcan : name ≠ canaryName) :
    (m.dynamicFlag = true →
      Maps_getitem m name
        = .ok (.node emptyMaps, .mk true (m.mapOf ++ [(name, .node emptyMaps)])) ∧
      (isClassAttr name = false → name ≠ "_map" → name ≠ "_dynamic" →
        Maps_attrAccess m name
          = .ok (.data (.node emptyMaps),
              .mk true (m.mapOf ++ [(name, .node emptyMaps)])))) ∧
    (m.dynamicFlag = false →
      Maps_getitem m name = .error .keyError ∧
      (isClassAttr name = false → name ≠ "_map" → name ≠ "_dynamic" →
        Maps_attrAccess m name = .error .keyError)) ∧
    setChain (Maps_init true []) ["a", "b", "c"] (.prim (.int 1)) = .ok chainExample ∧
    readChain chainExample ["a", "b", "c"] = .ok (.prim (.int 1), chainExample) := by
  obtain ⟨md, mm⟩ := m
  simp only [MapsT.mapOf, MapsT.dynamicFlag] at habs ⊢
  have hcanb : (name == canaryName) = false := beq_eq_false_iff_ne.mpr hcan
  refine ⟨?_, ?_, rfl, rfl⟩
  · intro hd
    subst hd
    have hset := odSet_append mm name (MValue.node emptyMaps) (lookup_none_forall _ _ habs)
    have hgi : Maps_getitem (.mk true mm) name
        = .ok (.node emptyMaps, .mk true (mm ++ [(name, .node emptyMaps)])) := by
      simp only [Maps_getitem, MapsT.mapOf, MapsT.dynamicFlag, habs, Option.isNone_none,
        Bool.true_and, Bool.and_true, hcanb, Bool.not_false, if_true, lookup_odSet_self]
      rw [hset]
    refine ⟨hgi, fun hcls hm hd2 => ?_⟩
    rw [Maps_attrAccess]
    rw [if_neg ?_, if_neg ?_, if_neg ?_, hgi]
    · rw [hcanb]
      simp
    · rw [hcls]
      simp
    · rw [beq_eq_false_iff_ne.mpr hm, beq_eq_false_iff_ne.mpr hd2]
      simp
  · intro hd
    subst hd
    have hgi : Maps_getitem (.mk false mm) name = .error .keyError := by
      simp [Maps_getitem, MapsT.mapOf, MapsT.dynamicFlag, habs]
    refine ⟨hgi, fun hcls hm hd2 => ?_⟩
    rw [Maps_attrAccess]
    rw [if_neg ?_, if_neg ?_, if_neg ?_, hgi]
    · rw [hcanb]
      simp
    · rw [hcls]
      simp
    · rw [beq_eq_false_iff_ne.mpr hm, beq_eq_false_iff_ne.mpr hd2]
      simp

/-- Witness for C9 with the name `a` on an empty dynamic node and an
empty non-dynamic node. -/
theorem c9_dynamic_read_witness :
    Maps_getitem (MapsT.mk true []) "a"
      = .ok (.node emptyMaps, .mk true [("a", .node emptyMaps)]) ∧
    Maps_getitem (MapsT.mk false []) "a" = .error .keyError :=
  ⟨((c9_dynamic_read (MapsT.mk true []) "a" rfl (by decide)).1 rfl).1,
   ((c9_dynamic_read (MapsT.mk false []) "a" rfl (by decide)).2.1 rfl).1⟩

/-- Accumulator form of the constructor loop: with every key already
normalized, keys pairwise distinct and disjoint from the accumulator, the
loop appends the processed entries in order. -/
theorem constructEntries_eq (dyn : Bool) (es : List (String × PValue)) :
    ∀ acc : List (String × MValue), goodEntries es = true →
      (∀ e ∈ acc, ∀ e2 ∈ es, e.1 ≠ e2.1) →
      constructEntries dyn es acc
        = acc ++ es.map (fun kv => (kv.1, processValue dyn kv.2)) := by
  induction es with
  | nil => intro acc _ _; simp [constructEntries]
  | cons hd tl ih =>
    intro acc hg hdisj
    obtain ⟨k, v⟩ := hd
    simp only [goodEntries, Bool.and_eq_true, beq_iff_eq, List.all_eq_true,
      Bool.not_eq_true', beq_eq_false_iff_ne] at hg
    obtain ⟨⟨⟨hk, hall⟩, hv⟩, htl⟩ := hg
    simp only [constructEntries]
    rw [hk]
    rw [odSet_append acc k _ (fun e he => hdisj e he (k, v) (List.mem_cons_self _ _))]
    rw [ih (acc ++ [(k, processValue dyn v)]) htl ?_]
    · simp
    · intro e he e2 he2
      rcases List.mem_append.mp he with hacc | hsing
      · exact hdisj e hacc e2 (List.mem_cons_of_mem _ he2)
      · rcases List.mem_singleton.mp hsing with rfl
        exact fun heq => (hall e2 he2) heq.symm

/-- Stripping whitespace from a whitespace-free list changes nothing. -/
theorem dropWhile_not_ws (cs : List Char) (h : ∀ c ∈ cs, isWS c = false) :
    cs.dropWhile isWS = cs := by
  cases cs with
  | nil => rfl
  | cons c rest => simp [List.dropWhile_cons, h c (List.mem_cons_self _ _)]

/-- An alphanumeric character is not whitespace. -/
theorem alnum_not_ws (c : Char) (h : isAlnumAZ c = true) : isWS c = false := by
  unfold isAlnumAZ at h
  unfold isWS
  simp only [Bool.or_eq_true, Bool.and_eq_true, decide_eq_true_eq] at h
  simp only [Bool.or_eq_false_iff, beq_eq_false_iff_ne]
  refine ⟨⟨⟨?_, ?_⟩, ?_⟩, ?_⟩ <;> rintro rfl <;> revert h <;> decide

/-- Completeness of the modelled literal fragment on bare words: a bare
identifier word is rejected by the modelled literal parse, exactly as
CPython rejects the `ast.Name` node with `ValueError`. -/
theorem litEvalCore_isBareWord (s : String) (h : isBareWord s = true) :
    litEvalCore s = Option.none := by
  unfold isBareWord at h
  simp only [Bool.and_eq_true, decide_eq_true_eq, Bool.not_eq_true', beq_eq_false_iff_ne]
    at h
  obtain ⟨⟨⟨⟨⟨h1, h2⟩, h3⟩, h4⟩, h5⟩, h6⟩ := h
  rw [List.all_eq_true] at h2
  obtain ⟨c, rest, hcs⟩ := List.exists_cons_of_ne_nil h1
  have hcmem : c ∈ s.toList := by rw [hcs]; exact List.mem_cons_self _ _
  have hcprop := h2 c hcmem
  rw [Bool.or_eq_true] at hcprop
  have hcne : ∀ d : Char, isAlnumAZ d = false → d ≠ '_' → c ≠ d := by
    intro d hd1 hd2 he
    rcases hcprop with ha | hu
    · rw [he, hd1] at ha; cases ha
    · exact hd2 (he ▸ (beq_iff_eq.mp hu))
  have hnws : ∀ x ∈ s.toList, isWS x = false := by
    intro x hx
    have hx2 := h2 x hx
    rw [Bool.or_eq_true] at hx2
    rcases hx2 with ha | hu
    · exact alnum_not_ws x ha
    · rw [beq_iff_eq.mp hu]; decide
  have hstrip : ((s.toList.dropWhile isWS).reverse.dropWhile isWS).reverse = s.toList := by
    rw [dropWhile_not_ws _ hnws,
      dropWhile_not_ws _ (fun x hx => hnws x (List.mem_reverse.mp hx)),
      List.reverse_reverse]
  have hdig : isDigitC c = false := by
    rw [hcs] at h3
    simpa using h3
  have hnotall : (decide (s.toList ≠ []) && s.toList.all isDigitC) = false := by
    rw [hcs]
    simp [List.all_cons, hdig]
  have hheadne : ∀ d : Char, isAlnumAZ d = false → d ≠ '_' →
      (s.toList.head? == some d) = false := by
    intro d hd1 hd2
    rw [hcs]
    simp only [List.head?_cons]
    exact beq_eq_false_iff_ne.mpr (fun he => hcne d hd1 hd2 (by injection he))
  have hq : ∀ q : Char, isAlnumAZ q = false → q ≠ '_' →
      quotedInner q s.toList = Option.none := by
    intro q hq1 hq2
    unfold quotedInner
    rw [if_neg]
    intro hcond
    rw [Bool.and_eq_true, Bool.and_eq_true, Bool.and_eq_true] at hcond
    have := hcond.1.1.2
    rw [hheadne q hq1 hq2] at this
    cases this
  unfold litEvalCore
  simp only [hstrip]
  rw [if_neg (fun he : s.toList = "True".toList => h4 (String.ext he)),
    if_neg (fun he : s.toList = "False".toList => h5 (String.ext he)),
    if_neg (fun he : s.toList = "None".toList => h6 (String.ext he))]
  rw [if_neg (by rw [hnotall]; exact fun he => Bool.false_ne_true he)]
  rw [if_neg ?_, if_neg ?_]
  · rw [hq '\'' (by decide) (by decide), hq '"' (by decide) (by decide)]
  · rw [Bool.and_eq_true, Bool.and_eq_true]
    rintro ⟨⟨hh, _⟩, _⟩
    rw [hheadne '+' (by decide) (by decide)] at hh
    cases hh
  · rw [Bool.and_eq_true, Bool.and_eq_true]
    rintro ⟨⟨hh, _⟩, _⟩
    rw [hheadne '-' (by decide) (by decide)] at hh
    cases hh

mutual
/-- Converting a processed value back yields the original value, under the
round-trip hypothesis. -/
theorem roundtrip_val (dyn : Bool) (v : PValue) (h : goodVal v = true) :
    toDictValue (processValue dyn v) = v := by
  cases v with
  | str s =>
    have hn : litEvalCore s = Option.none := litEvalCore_isBareWord s h
    show toDictValue (applyLitEval (.prim (.str s))) = .str s
    simp [applyLitEval, litEval, hn, toDictValue]
  | int n => rfl
  | bool b => rfl
  | none => rfl
  | tuple items => rfl
  | dict es =>
    show toDictValue (applyLitEval (.node (.mk dyn (constructEntries dyn es [])))) = .dict es
    have hg : goodEntries es = true := h
    show PValue.dict (toDictEntries (constructEntries dyn es [])) = .dict es
    rw [constructEntries_eq dyn es [] hg (by simp), List.nil_append,
      roundtrip_map dyn es hg]
  | list items =>
    show toDictValue (applyLitEval (.mlist (processItems dyn items))) = .list items
    have hg : goodItems items = true := h
    show PValue.list (toDictItems (processItems dyn items)) = .list items
    rw [roundtrip_items dyn items hg]

/-- Converting rebuilt list elements back yields the original elements. -/
theorem roundtrip_items (dyn : Bool) (items : List PValue) (h : goodItems items = true) :
    toDictItems (processItems dyn items) = items := by
  cases items with
  | nil => rfl
  | cons hd tl =>
    cases hd with
    | dict es =>
      have hg : goodEntries es = true ∧ goodItems tl = true := by
        have h2 : (goodEntries es && goodItems tl) = true := h
        simpa [Bool.and_eq_true] using h2
      show PValue.dict (toDictEntries (constructEntries dyn es [])) ::
          toDictItems (processItems dyn tl) = PValue.dict es :: tl
      rw [constructEntries_eq dyn es [] hg.1 (by simp), List.nil_append,
        roundtrip_map dyn es hg.1, roundtrip_items dyn tl hg.2]
    | str s =>
      show PValue.str s :: toDictItems (processItems dyn tl) = PValue.str s :: tl
      rw [roundtrip_items dyn tl h]
    | int n =>
      show PValue.int n :: toDictItems (processItems dyn tl) = PValue.int n :: tl
      rw [roundtrip_items dyn tl h]
    | bool b =>
      show PValue.bool b :: toDictItems (processItems dyn tl) = PValue.bool b :: tl
      rw [roundtrip_items dyn tl h]
    | none =>
      show PValue.none :: toDictItems (processItems dyn tl) = PValue.none :: tl
      rw [roundtrip_items dyn tl h]
    | list l =>
      show PValue.list l :: toDictItems (processItems dyn tl) = PValue.list l :: tl
      rw [roundtrip_items dyn tl h]
    | tuple l =>
      show PValue.tuple l :: toDictItems (processItems dyn tl) = PValue.tuple l :: tl
      rw [roundtrip_items dyn tl h]

/-- Converting the processed entries back yields the original entries. -/
theorem roundtrip_map (dyn : Bool) (es : List (String × PValue))
    (h : goodEntries es = true) :
    toDictEntries (es.map (fun kv => (kv.1, processValue dyn kv.2))) = es := by
  cases es with
  | nil => rfl
  | cons hd tl =>
    obtain ⟨k, v⟩ := hd
    have hg : goodVal v = true ∧ goodEntries tl = true := by
      have h2 : ((normalizeKey k == k) && tl.all (fun e => !(e.1 == k)) &&
          goodVal v && goodEntries tl) = true := h
      simp only [Bool.and_eq_true] at h2
      exact ⟨h2.1.2, h2.2⟩
    show (k, toDictValue (processValue dyn v)) ::
        toDictEntries (tl.map (fun kv => (kv.1, processValue dyn kv.2))) = (k, v) :: tl
    rw [roundtrip_val dyn v hg.1, roundtrip_map dyn tl hg.2]
end

/-- C1.  Round-trip: for a plain nested dictionary whose keys are already
normalized and pairwise distinct and whose string values are not
coercible by the scalar-coercion rule (see `goodEntries`), converting to
a node with the constructor and back with `to_dict` reproduces the
dictionary. -/
theorem c1_roundtrip (es : List (String × PValue)) (h : goodEntries es = true) :
    (Maps_init true es).to_dict = .dict es := by
  show PValue.dict (toDictEntries (constructEntries true es [])) = .dict es
  rw [constructEntries_eq true es [] h (by simp), List.nil_append, roundtrip_map true es h]

/-- Witness for C1 on a small dictionary with a nested dictionary, a
non-coercible string and an integer. -/
theorem c1_roundtrip_witness :
    goodEntries [("hello", .str "world"), ("n", .int 5),
      ("sub", .dict [("x", .str "word")])] = true ∧
    (Maps_init true [("hello", .str "world"), ("n", .int 5),
      ("sub", .dict [("x", .str "word")])]).to_dict
      = .dict [("hello", .str "world"), ("n", .int 5),
          ("sub", .dict [("x", .str "word")])] :=
  ⟨by rfl, c1_roundtrip _ (by rfl)⟩

/-- The delimiter scan distributes over append, with shifted offsets. -/
theorem ampIdx_append (xs ys : List Char) (i : Nat) :
    ampIdx (xs ++ ys) i = ampIdx xs i ++ ampIdx ys (i + xs.length) := by
  induction xs generalizing i with
  | nil => simp [ampIdx]
  | cons c rest ih =>
    by_cases hc : c = '&' <;>
      simp [ampIdx, hc, ih (i + 1), Nat.add_assoc, Nat.add_comm 1]

/-- A delimiter-free segment contributes no match positions. -/
theorem ampIdx_no_amp (xs : List Char) : '&' ∉ xs → ∀ i : Nat, ampIdx xs i = [] := by
  induction xs with
  | nil => intro _ _; rfl
  | cons c rest ih =>
    intro h i
    have hc : ¬(c = '&') := fun e => h (by rw [e]; exact List.mem_cons_self _ _)
    simp [ampIdx, hc, ih (fun hm => h (List.mem_cons_of_mem _ hm)) (i + 1)]

/-- A list is an initial segment of itself followed by anything. -/
theorem leadsWith_append (xs ys : List Char) : leadsWith xs (xs ++ ys) = true := by
  induction xs with
  | nil => rfl
  | cons c rest ih => simpa [leadsWith] using ih

/-- Taking one past an initial segment captures the next element. -/
theorem take_append_succ (xs : List Char) (y : Char) (zs : List Char) :
    (xs ++ y :: zs).take (xs.length + 1) = xs ++ [y] := by
  induction xs with
  | nil => rfl
  | cons c rest ih => simp [List.take_succ_cons, ih]

/-- `str.replace` walks over a segment that contains no occurrence of the
pattern head. -/
theorem replaceAll_skip (tl new : List Char) :
    ∀ pre tail : List Char, '&' ∉ pre →
      replaceAll ('&' :: tl) new (pre ++ tail)
        = pre ++ replaceAll ('&' :: tl) new tail := by
  intro pre
  induction pre with
  | nil => intro tail _; rfl
  | cons c rest ih =>
    intro tail h
    have hc : ('&' == c) = false :=
      beq_eq_false_iff_ne.mpr fun e => h (by rw [← e]; exact List.mem_cons_self _ _)
    rw [List.cons_append, replaceAll]
    simp only [List.isEmpty_cons, leadsWith, hc, Bool.false_and, Bool.false_eq_true,
      if_false]
    rw [ih tail (fun hm => h (List.mem_cons_of_mem _ hm))]
    rfl

/-- `str.replace` replaces an occurrence sitting at the front and skips
past it. -/
theorem replaceAll_head (tl new post : List Char) :
    replaceAll ('&' :: tl) new (('&' :: tl) ++ post)
      = new ++ replaceAll ('&' :: tl) new post := by
  rw [List.cons_append, replaceAll]
  simp only [List.isEmpty_cons, Bool.false_eq_true, if_false]
  rw [← List.cons_append, leadsWith_append]
  simp only [if_true]
  rw [List.drop_left ('&' :: tl) post]

/-- `str.replace` leaves a segment without the pattern head unchanged. -/
theorem replaceAll_absent (tl new : List Char) :
    ∀ post : List Char, '&' ∉ post →
      replaceAll ('&' :: tl) new post = post := by
  intro post
  induction post with
  | nil => intro _; simp [replaceAll]
  | cons c rest ih =>
    intro h
    have hc : ('&' == c) = false :=
      beq_eq_false_iff_ne.mpr fun e => h (by rw [← e]; exact List.mem_cons_self _ _)
    rw [replaceAll]
    simp only [List.isEmpty_cons, leadsWith, hc, Bool.false_and, Bool.false_eq_true,
      if_false]
    rw [ih (fun hm => h (List.mem_cons_of_mem _ hm))]

/-- Substitution on an option string containing exactly one balanced pair
of delimiters: the bracketed span is replaced throughout by the value of
the enclosed name when the environment defines it, and the string is
untouched otherwise. -/
theorem substEnv_single_pair (env : EnvT) (pre nm post : List Char)
    (hpre : '&' ∉ pre) (hnm : '&' ∉ nm) (hpost : '&' ∉ post) :
    substEnv env (pre ++ ('&' :: (nm ++ ('&' :: post))))
      = match env.lookup (String.mk nm) with
        | some v => pre ++ (v.toList ++ post)
        | Option.none => pre ++ ('&' :: (nm ++ ('&' :: post))) := by
  have hidx : ampIdx (pre ++ ('&' :: (nm ++ ('&' :: post)))) 0
      = [pre.length, pre.length + 1 + nm.length] := by
    rw [ampIdx_append, ampIdx_no_amp pre hpre 0, List.nil_append, Nat.zero_add]
    rw [ampIdx]
    simp only [if_pos rfl]
    rw [ampIdx_append, ampIdx_no_amp nm hnm _, List.nil_append]
    rw [ampIdx]
    simp only [if_pos rfl]
    rw [ampIdx_no_amp post hpost _]
    simp
  have hsub : ((pre ++ ('&' :: (nm ++ ('&' :: post)))).drop pre.length).take
      (pre.length + 1 + nm.length + 1 - pre.length) = '&' :: (nm ++ ['&']) := by
    rw [List.drop_left pre _]
    have harith : pre.length + 1 + nm.length + 1 - pre.length = nm.length + 1 + 1 := by
      omega
    rw [harith, List.take_succ_cons, take_append_succ nm '&' post]
  have hms : ampMatches (pre ++ ('&' :: (nm ++ ('&' :: post))))
      = [(pre.length, pre.length + 1),
         (pre.length + 1 + nm.length, pre.length + 1 + nm.length + 1)] := by
    rw [ampMatches, hidx]
    rfl
  rw [substEnv, hms]
  rw [if_pos (by simp)]
  rw [substLoop]
  simp only [hsub, List.drop_succ_cons, List.drop_zero, List.dropLast_concat]
  have hshape : pre ++ ('&' :: (nm ++ ('&' :: post)))
      = pre ++ (('&' :: (nm ++ ['&'])) ++ post) := by
    simp
  cases hl : env.lookup (String.mk nm) with
  | none => rfl
  | some v =>
    show substLoop env []
        (replaceAll ('&' :: (nm ++ ['&'])) v.toList (pre ++ ('&' :: (nm ++ ('&' :: post)))))
      = pre ++ (v.toList ++ post)
    rw [hshape, replaceAll_skip _ _ pre _ hpre, replaceAll_head,
      replaceAll_absent _ _ post hpost]
    rfl

/-- Substitution is skipped entirely on an odd delimiter count. -/
theorem substEnv_odd (env : EnvT) (ov : List Char)
    (h : (ampIdx ov 0).length % 2 = 1) : substEnv env ov = ov := by
  unfold substEnv
  have hlen : (ampMatches ov).length = (ampIdx ov 0).length := by
    simp [ampMatches]
  rw [if_neg ?_]
  intro hc
  rw [Bool.and_eq_true] at hc
  have h2 := hc.2
  rw [beq_iff_eq, hlen, h] at h2
  cases h2

/-- C6 counterexample: two balanced pairs where the first substitution
changes the string length.  With `A=xx` and `B=z` the option string
`&A&&B&` should, by the claim, become `xxz`; the loop instead extracts
the second span at positions computed on the original string, finds the
stale text `B&`, looks up the empty name, and leaves `xx&B&`. -/
theorem c6_stale_indices_counterexample :
    substEnv [("A", "xx"), ("B", "z")] "&A&&B&".toList = "xx&B&".toList ∧
    "xx&B&".toList ≠ "xxz".toList := by
  constructor
  · simp [substEnv, substLoop, ampMatches, ampIdx, replaceAll, leadsWith, List.lookup]
  · decide

/-- C6 amended: substitution processes delimiter pairs left to right with
positions precomputed on the original string.  A string with an odd
number of delimiters is returned unchanged; a string containing exactly
one balanced pair `&NAME&` has the span replaced by the environment value
of `NAME` when set and is untouched when unset; with several pairs, a
substitution that changes the length makes later spans be cut at stale
offsets, so they can fail to substitute (see the counterexample). -/
theorem c6_subst_amended :
    (∀ (env : EnvT) (ov : List Char), (ampIdx ov 0).length % 2 = 1 →
      substEnv env ov = ov) ∧
    (∀ (env : EnvT) (pre nm post : List Char) (v : String),
      '&' ∉ pre → '&' ∉ nm → '&' ∉ post → env.lookup (String.mk nm) = some v →
      substEnv env (pre ++ ('&' :: (nm ++ ('&' :: post)))) = pre ++ (v.toList ++ post)) ∧
    (∀ (env : EnvT) (pre nm post : List Char),
      '&' ∉ pre → '&' ∉ nm → '&' ∉ post → env.lookup (String.mk nm) = Option.none →
      substEnv env (pre ++ ('&' :: (nm ++ ('&' :: post))))
        = pre ++ ('&' :: (nm ++ ('&' :: post)))) := by
  refine ⟨substEnv_odd, ?_, ?_⟩
  · intro env pre nm post v hpre hnm hpost hl
    rw [substEnv_single_pair env pre nm post hpre hnm hpost, hl]
  · intro env pre nm post hpre hnm hpost hl
    rw [substEnv_single_pair env pre nm post hpre hnm hpost, hl]

/-- Witness for C6 amended on the specification's own examples:
`&HOME&/data` with `HOME=/x` becomes `/x/data`, and the unbalanced
`&HOME/data` is unchanged. -/
theorem c6_subst_amended_witness :
    substEnv [("HOME", "/x")] ("&HOME&/data".toList) = "/x/data".toList ∧
    substEnv [("HOME", "/x")] ("&HOME/data".toList) = "&HOME/data".toList := by
  constructor
  · have h := c6_subst_amended.2.1 [("HOME", "/x")] [] "HOME".toList "/data".toList
      "/x" (by decide) (by decide) (by decide) (by rfl)
    simpa using h
  · have h := c6_subst_amended.1 [("HOME", "/x")] "&HOME/data".toList (by rfl)
    simpa using h

/-- Writing into a node leaves the heap size unchanged. -/
theorem heapSet_length (nh : NodeHeap) (a : Nat) (k : String) (v : NVal) :
    (heapSet nh a k v).length = nh.length := by
  unfold heapSet
  cases h : nh.get? a <;> simp

/-- Writing into a node leaves every other node unchanged. -/
theorem heapSet_get_ne (nh : NodeHeap) (a : Nat) (k : String) (v : NVal) (i : Nat)
    (h : i ≠ a) : (heapSet nh a k v).get? i = nh.get? i := by
  unfold heapSet
  cases h2 : nh.get? a
  · rfl
  · simp only [List.get?_eq_getElem?]
    exact List.getElem?_set_ne (fun e => h e.symm)

/-- Writing into an existing node updates exactly its backing store. -/
theorem heapSet_get_same (nh : NodeHeap) (a : Nat) (k : String) (v : NVal)
    (node : NodeObj) (h : nh.get? a = some node) :
    (heapSet nh a k v).get? a = some ⟨node.dyn, odSet node.entries k v⟩ := by
  unfold heapSet
  rw [h]
  have hlt : a < nh.length := by
    by_contra hge
    rw [List.get?_eq_none.mpr (Nat.le_of_not_lt hge)] at h
    cases h
  simp only [List.get?_eq_getElem?]
  exact List.getElem?_set_eq_of_lt _ (by simpa using hlt)

/-
Heap preservation: one constructor invocation allocates its own node at
the end of the heap and mutates only nodes it allocated — every node that
existed before the call (other than the caller's own node, for the loop
lemmas) is untouched.  This is the Lean counterpart of the fact that
`Maps.__init__` only assigns into `self._map` and into freshly created
child objects.
-/
mutual
theorem constructH_preserve (fuel : Nat) (dh : DictHeap) (addr : Nat) (dyn : Bool)
    (nh : NodeHeap) (n : Nat) (nh1 : NodeHeap)
    (h : constructH fuel dh addr dyn nh = some (n, nh1)) :
    n = nh.length ∧ nh.length ≤ nh1.length ∧
      ∀ i, i < nh.length → nh1.get? i = nh.get? i := by
  match fuel with
  | 0 => simp [constructH] at h
  | fuel + 1 =>
    cases hda : dh[addr]? with
    | none => simp [constructH, List.get?_eq_getElem?, hda] at h
    | some entries =>
      simp only [constructH, List.get?_eq_getElem?, hda] at h
      cases hgo : constructGo fuel dh dyn nh.length entries [(addr, nh.length)]
          (nh ++ [⟨dyn, []⟩]) with
      | none =>
        rw [hgo] at h
        exact Option.noConfusion h
      | some nh2 =>
        rw [hgo] at h
        obtain ⟨hn, hnh⟩ := Prod.mk.inj (Option.some.inj h)
        subst hnh
        have hp := constructGo_preserve fuel dh dyn nh.length entries
          [(addr, nh.length)] (nh ++ [⟨dyn, []⟩]) nh2 hgo
        refine ⟨hn.symm, ?_, ?_⟩
        · have hl := hp.1
          simp only [List.length_append, List.length_cons, List.length_nil] at hl
          omega
        · intro i hi
          rw [hp.2 i (by simp; omega) (by omega)]
          exact List.get?_append hi
termination_by (fuel, 0)
decreasing_by
  all_goals simp_wf
  all_goals omega

theorem constructGo_preserve (fuel : Nat) (dh : DictHeap) (dyn : Bool) (selfA : Nat)
    (es : List (String × HVal)) (tracked : List (Nat × Nat)) (nh : NodeHeap)
    (nh1 : NodeHeap) (h : constructGo fuel dh dyn selfA es tracked nh = some nh1) :
    nh.length ≤ nh1.length ∧
      ∀ i, i < nh.length → i ≠ selfA → nh1.get? i = nh.get? i := by
  match es with
  | [] =>
    simp only [constructGo] at h
    obtain rfl := Option.some.inj h
    exact ⟨Nat.le_refl _, fun i _ _ => rfl⟩
  | (k, .dref a) :: rest =>
    cases hl : tracked.lookup a with
    | some n =>
      simp only [constructGo, hl] at h
      have hp := constructGo_preserve fuel dh dyn selfA rest tracked
        (heapSet nh selfA (normalizeKey k) (applyLitEvalH (.nref n))) nh1 h
      rw [heapSet_length] at hp
      refine ⟨hp.1, fun i hi hne => ?_⟩
      rw [hp.2 i hi hne, heapSet_get_ne _ _ _ _ _ hne]
    | none =>
      simp only [constructGo, hl] at h
      cases hc : constructH fuel dh a dyn nh with
      | none =>
        rw [hc] at h
        exact Option.noConfusion h
      | some p =>
        obtain ⟨n2, nhc⟩ := p
        rw [hc] at h
        have hcp := constructH_preserve fuel dh a dyn nh n2 nhc hc
        have hp := constructGo_preserve fuel dh dyn selfA rest (tracked ++ [(a, n2)])
          (heapSet nhc selfA (normalizeKey k) (applyLitEvalH (.nref n2))) nh1 h
        rw [heapSet_length] at hp
        refine ⟨Nat.le_trans hcp.2.1 hp.1, fun i hi hne => ?_⟩
        rw [hp.2 i (Nat.lt_of_lt_of_le hi hcp.2.1) hne,
          heapSet_get_ne _ _ _ _ _ hne, hcp.2.2 i hi]
  | (k, .hlist items) :: rest =>
    cases hc : constructList fuel dh dyn items nh with
    | none => simp [constructGo, hc] at h
    | some p =>
      obtain ⟨vals, nhc⟩ := p
      simp only [constructGo, hc] at h
      have hcp := constructList_preserve fuel dh dyn items nh vals nhc hc
      have hp := constructGo_preserve fuel dh dyn selfA rest tracked
        (heapSet nhc selfA (normalizeKey k) (applyLitEvalH (.nlist vals))) nh1 h
      rw [heapSet_length] at hp
      refine ⟨Nat.le_trans hcp.1 hp.1, fun i hi hne => ?_⟩
      rw [hp.2 i (Nat.lt_of_lt_of_le hi hcp.1) hne,
        heapSet_get_ne _ _ _ _ _ hne, hcp.2 i hi]
  | (k, .str s) :: rest =>
    simp only [constructGo] at h
    have hp := constructGo_preserve fuel dh dyn selfA rest tracked
      (heapSet nh selfA (normalizeKey k) (applyLitEvalH (.raw (.str s)))) nh1 h
    rw [heapSet_length] at hp
    exact ⟨hp.1, fun i hi hne => by
      rw [hp.2 i hi hne, heapSet_get_ne _ _ _ _ _ hne]⟩
  | (k, .int n) :: rest =>
    simp only [constructGo] at h
    have hp := constructGo_preserve fuel dh dyn selfA rest tracked
      (heapSet nh selfA (normalizeKey k) (applyLitEvalH (.raw (.int n)))) nh1 h
    rw [heapSet_length] at hp
    exact ⟨hp.1, fun i hi hne => by
      rw [hp.2 i hi hne, heapSet_get_ne _ _ _ _ _ hne]⟩
  | (k, .bool b) :: rest =>
    simp only [constructGo] at h
    have hp := constructGo_preserve fuel dh dyn selfA rest tracked
      (heapSet nh selfA (normalizeKey k) (applyLitEvalH (.raw (.bool b)))) nh1 h
    rw [heapSet_length] at hp
    exact ⟨hp.1, fun i hi hne => by
      rw [hp.2 i hi hne, heapSet_get_ne _ _ _ _ _ hne]⟩
  | (k, HVal.none) :: rest =>
    simp only [constructGo] at h
    have hp := constructGo_preserve fuel dh dyn selfA rest tracked
      (heapSet nh selfA (normalizeKey k) (applyLitEvalH (.raw (HVal.none)))) nh1 h
    rw [heapSet_length] at hp
    exact ⟨hp.1, fun i hi hne => by
      rw [hp.2 i hi hne, heapSet_get_ne _ _ _ _ _ hne]⟩
  | (k, .htuple its) :: rest =>
    simp only [constructGo] at h
    have hp := constructGo_preserve fuel dh dyn selfA rest tracked
      (heapSet nh selfA (normalizeKey k) (applyLitEvalH (.raw (.htuple its)))) nh1 h
    rw [heapSet_length] at hp
    exact ⟨hp.1, fun i hi hne => by
      rw [hp.2 i hi hne, heapSet_get_ne _ _ _ _ _ hne]⟩

termination_by (fuel, sizeOf es)
decreasing_by
  all_goals simp_wf
  all_goals omega

theorem constructList_preserve (fuel : Nat) (dh : DictHeap) (dyn : Bool)
    (items : List HVal) (nh : NodeHeap) (vals : List NVal) (nh1 : NodeHeap)
    (h : constructList fuel dh dyn items nh = some (vals, nh1)) :
    nh.length ≤ nh1.length ∧ ∀ i, i < nh.length → nh1.get? i = nh.get? i := by
  match items with
  | [] =>
    simp only [constructList] at h
    obtain ⟨hv, hn⟩ := Prod.mk.inj (Option.some.inj h)
    subst hn
    exact ⟨Nat.le_refl _, fun i _ => rfl⟩
  | .dref a :: rest =>
    cases hc : constructH fuel dh a dyn nh with
    | none => simp [constructList, hc] at h
    | some p =>
      obtain ⟨n2, nhc⟩ := p
      simp only [constructList, hc] at h
      cases hr : constructList fuel dh dyn rest nhc with
      | none =>
        rw [hr] at h
        exact Option.noConfusion h
      | some q =>
        obtain ⟨vals2, nh2⟩ := q
        rw [hr] at h
        obtain ⟨hv2, hn2⟩ := Prod.mk.inj (Option.some.inj h)
        subst hn2
        have hcp := constructH_preserve fuel dh a dyn nh n2 nhc hc
        have hrp := constructList_preserve fuel dh dyn rest nhc vals2 nh2 hr
        exact ⟨Nat.le_trans hcp.2.1 hrp.1, fun i hi => by
          rw [hrp.2 i (Nat.lt_of_lt_of_le hi hcp.2.1), hcp.2.2 i hi]⟩
  | .str s :: rest =>
    simp only [constructList] at h
    cases hr : constructList fuel dh dyn rest nh with
    | none =>
      rw [hr] at h
      exact Option.noConfusion h
    | some q =>
      obtain ⟨vals2, nh2⟩ := q
      rw [hr] at h
      obtain ⟨hv2, hn2⟩ := Prod.mk.inj (Option.some.inj h)
      subst hn2
      exact constructList_preserve fuel dh dyn rest nh vals2 nh2 hr
  | .int n :: rest =>
    simp only [constructList] at h
    cases hr : constructList fuel dh dyn rest nh with
    | none =>
      rw [hr] at h
      exact Option.noConfusion h
    | some q =>
      obtain ⟨vals2, nh2⟩ := q
      rw [hr] at h
      obtain ⟨hv2, hn2⟩ := Prod.mk.inj (Option.some.inj h)
      subst hn2
      exact constructList_preserve fuel dh dyn rest nh vals2 nh2 hr
  | .bool b :: rest =>
    simp only [constructList] at h
    cases hr : constructList fuel dh dyn rest nh with
    | none =>
      rw [hr] at h
      exact Option.noConfusion h
    | some q =>
      obtain ⟨vals2, nh2⟩ := q
      rw [hr] at h
      obtain ⟨hv2, hn2⟩ := Prod.mk.inj (Option.some.inj h)
      subst hn2
      exact constructList_preserve fuel dh dyn rest nh vals2 nh2 hr
  | HVal.none :: rest =>
    simp only [constructList] at h
    cases hr : constructList fuel dh dyn rest nh with
    | none =>
      rw [hr] at h
      exact Option.noConfusion h
    | some q =>
      obtain ⟨vals2, nh2⟩ := q
      rw [hr] at h
      obtain ⟨hv2, hn2⟩ := Prod.mk.inj (Option.some.inj h)
      subst hn2
      exact constructList_preserve fuel dh dyn rest nh vals2 nh2 hr
  | .hlist l :: rest =>
    simp only [constructList] at h
    cases hr : constructList fuel dh dyn rest nh with
    | none =>
      rw [hr] at h
      exact Option.noConfusion h
    | some q =>
      obtain ⟨vals2, nh2⟩ := q
      rw [hr] at h
      obtain ⟨hv2, hn2⟩ := Prod.mk.inj (Option.some.inj h)
      subst hn2
      exact constructList_preserve fuel dh dyn rest nh vals2 nh2 hr
  | .htuple l :: rest =>
    simp only [constructList] at h
    cases hr : constructList fuel dh dyn rest nh with
    | none =>
      rw [hr] at h
      exact Option.noConfusion h
    | some q =>
      obtain ⟨vals2, nh2⟩ := q
      rw [hr] at h
      obtain ⟨hv2, hn2⟩ := Prod.mk.inj (Option.some.inj h)
      subst hn2
      exact constructList_preserve fuel dh dyn rest nh vals2 nh2 hr

termination_by (fuel, sizeOf items)
decreasing_by
  all_goals simp_wf
  all_goals omega

end

/-- Same-level sharing is linked: constructing a dictionary whose two
entries hold the *same* dictionary object (by identity) produces one
node, referenced from both slots — the second occurrence is linked to the
already-constructed node through `tracked_ids`, whether the shared object
is the dictionary itself (direct self-reference) or another one. -/
theorem constructH_links_sibling_drefs (fuel : Nat) (dh : DictHeap) (addr a : Nat)
    (dyn : Bool) (k1 k2 : String) (nh : NodeHeap) (rootA : Nat) (nh1 : NodeHeap)
    (hda : dh[addr]? = some [(k1, .dref a), (k2, .dref a)])
    (hkeys : normalizeKey k1 ≠ normalizeKey k2)
    (h : constructH fuel dh addr dyn nh = some (rootA, nh1)) :
    ∃ n node, nh1.get? rootA = some node ∧
      node.entries.lookup (normalizeKey k1) = some (.nref n) ∧
      node.entries.lookup (normalizeKey k2) = some (.nref n) := by
  have hale : ∀ x : Nat, applyLitEvalH (.nref x) = .nref x := fun _ => rfl
  match fuel with
  | 0 => simp [constructH] at h
  | fuel + 1 =>
    simp only [constructH, List.get?_eq_getElem?, hda] at h
    cases hgo : constructGo fuel dh dyn nh.length [(k1, .dref a), (k2, .dref a)]
        [(addr, nh.length)] (nh ++ [⟨dyn, []⟩]) with
    | none =>
      rw [hgo] at h
      exact Option.noConfusion h
    | some nh2 =>
      rw [hgo] at h
      obtain ⟨hroot, hnh⟩ := Prod.mk.inj (Option.some.inj h)
      subst hnh
      subst hroot
      have hself : (nh ++ [(⟨dyn, []⟩ : NodeObj)]).get? nh.length = some ⟨dyn, []⟩ :=
        List.get?_concat_length nh _
      by_cases haddr : a = addr
      · have hl1 : ([(addr, nh.length)] : List (Nat × Nat)).lookup a = some nh.length := by
          simp [List.lookup, haddr]
        simp only [constructGo, hl1, hale] at hgo
        obtain rfl := Option.some.inj hgo
        have hA := heapSet_get_same (nh ++ [⟨dyn, []⟩]) nh.length
          (normalizeKey k1) (.nref nh.length) _ hself
        have hB := heapSet_get_same _ nh.length (normalizeKey k2) (.nref nh.length) _ hA
        refine ⟨nh.length, _, hB, ?_, ?_⟩
        · show (odSet (odSet [] (normalizeKey k1) (NVal.nref nh.length))
              (normalizeKey k2) (.nref nh.length)).lookup (normalizeKey k1)
            = some (.nref nh.length)
          simp [odSet, List.lookup, hkeys, beq_eq_false_iff_ne.mpr hkeys]
        · show (odSet (odSet [] (normalizeKey k1) (NVal.nref nh.length))
              (normalizeKey k2) (.nref nh.length)).lookup (normalizeKey k2)
            = some (.nref nh.length)
          simp [odSet, List.lookup, hkeys, Ne.symm hkeys,
            beq_eq_false_iff_ne.mpr (Ne.symm hkeys)]
      · have hl1 : ([(addr, nh.length)] : List (Nat × Nat)).lookup a = Option.none := by
          simp [List.lookup, beq_eq_false_iff_ne.mpr haddr]
        simp only [constructGo, hl1] at hgo
        cases hc : constructH fuel dh a dyn (nh ++ [⟨dyn, []⟩]) with
        | none =>
          rw [hc] at hgo
          exact Option.noConfusion hgo
        | some p =>
          obtain ⟨n2, nhc⟩ := p
          rw [hc] at hgo
          have hcp := constructH_preserve fuel dh a dyn (nh ++ [⟨dyn, []⟩]) n2 nhc hc
          have hl2 : (([(addr, nh.length)] ++ [(a, n2)]) : List (Nat × Nat)).lookup a
              = some n2 := by
            simp [List.lookup, beq_eq_false_iff_ne.mpr haddr]
          simp only [constructGo, hl2, hale] at hgo
          obtain rfl := Option.some.inj hgo
          have hselfc : nhc.get? nh.length = some ⟨dyn, []⟩ := by
            rw [hcp.2.2 nh.length (by simp), hself]
          have hA := heapSet_get_same nhc nh.length (normalizeKey k1) (.nref n2) _ hselfc
          have hB := heapSet_get_same _ nh.length (normalizeKey k2) (.nref n2) _ hA
          refine ⟨n2, _, hB, ?_, ?_⟩
          · show (odSet (odSet [] (normalizeKey k1) (NVal.nref n2))
                (normalizeKey k2) (.nref n2)).lookup (normalizeKey k1)
              = some (.nref n2)
            simp [odSet, List.lookup, hkeys, beq_eq_false_iff_ne.mpr hkeys]
          · show (odSet (odSet [] (normalizeKey k1) (NVal.nref n2))
                (normalizeKey k2) (.nref n2)).lookup (normalizeKey k2)
              = some (.nref n2)
            simp [odSet, List.lookup, hkeys, Ne.symm hkeys,
              beq_eq_false_iff_ne.mpr (Ne.symm hkeys)]

/-- C7 counterexample: the identity registry is not shared across
recursion levels.  In the heap, dictionary object `1` appears both as a
direct value of the root (key `a`) and inside the nested dictionary `2`
(key `c`).  Construction terminates but allocates object `1` twice: the
slot at `a` holds a reference to node `1` while the slot at `b`/`c` holds
a reference to the freshly allocated node `3` — not the
already-constructed node, as the claim requires (the second conjunct
refutes the three-node heap the claim would produce, where `c` links back
to node `1`). -/
theorem c7_shared_dict_not_linked :
    constructH 10 [[("a", .dref 1), ("b", .dref 2)], [("x", .int 5)], [("c", .dref 1)]]
        0 true []
      = some (0, [⟨true, [("a", .nref 1), ("b", .nref 2)]⟩,
                  ⟨true, [("x", .raw (.int 5))]⟩,
                  ⟨true, [("c", .nref 3)]⟩,
                  ⟨true, [("x", .raw (.int 5))]⟩]) ∧
    constructH 10 [[("a", .dref 1), ("b", .dref 2)], [("x", .int 5)], [("c", .dref 1)]]
        0 true []
      ≠ some (0, [⟨true, [("a", .nref 1), ("b", .nref 2)]⟩,
                  ⟨true, [("x", .raw (.int 5))]⟩,
                  ⟨true, [("c", .nref 1)]⟩]) := by
  have h1 : constructH 10
      [[("a", .dref 1), ("b", .dref 2)], [("x", .int 5)], [("c", .dref 1)]] 0 true []
      = some (0, [⟨true, [("a", .nref 1), ("b", .nref 2)]⟩,
                  ⟨true, [("x", .raw (.int 5))]⟩,
                  ⟨true, [("c", .nref 3)]⟩,
                  ⟨true, [("x", .raw (.int 5))]⟩]) := by
    simp [constructH, constructGo, constructList, heapSet, applyLitEvalH, odSet,
      normalizeKey, normChars, isAlnumAZ, litEval, litEvalCore, List.lookup]
  refine ⟨h1, ?_⟩
  rw [h1]
  simp

/-- C7 amended: identity tracking is local to one constructor invocation.
A dictionary object repeated among the values of a single dictionary is
linked to the already-constructed node: in general, for any heap,
constructing a dictionary whose two entries hold the same dictionary
object by identity stores the same node reference in both slots (first
conjunct, via `constructH_links_sibling_drefs`; the shared object may be
the dictionary itself); concretely, both slots of the example reference
node `1` (second conjunct), and a direct self-reference is linked back to
the node under construction (third conjunct), with `to_dict` terminating
and the self slot pointing to the plain dictionary being built (fourth
conjunct).  But a dictionary nested inside itself only through an
intermediate dictionary defeats the per-invocation registry: construction
recurses without terminating — it fails at every recursion bound (last
conjunct, for both entry points of the two-dictionary cycle). -/
theorem c7_cycle_handling_amended :
    (∀ (fuel : Nat) (dh : DictHeap) (addr a : Nat) (dyn : Bool) (k1 k2 : String)
        (nh : NodeHeap) (rootA : Nat) (nh1 : NodeHeap),
      dh[addr]? = some [(k1, .dref a), (k2, .dref a)] →
      normalizeKey k1 ≠ normalizeKey k2 →
      constructH fuel dh addr dyn nh = some (rootA, nh1) →
      ∃ n node, nh1.get? rootA = some node ∧
        node.entries.lookup (normalizeKey k1) = some (.nref n) ∧
        node.entries.lookup (normalizeKey k2) = some (.nref n)) ∧
    constructH 10 [[("a", .dref 1), ("b", .dref 1)], [("x", .int 5)]] 0 true []
      = some (0, [⟨true, [("a", .nref 1), ("b", .nref 1)]⟩,
                  ⟨true, [("x", .raw (.int 5))]⟩]) ∧
    constructH 10 [[("s", .dref 0), ("n", .int 7)]] 0 true []
      = some (0, [⟨true, [("s", .nref 0), ("n", .raw (.int 7))]⟩]) ∧
    to_dictH 10 [⟨true, [("s", .nref 0), ("n", .raw (.int 7))]⟩] 0 []
      = some (0, [[("s", .dref 0), ("n", .int 7)]]) ∧
    (∀ (fuel : Nat) (dyn : Bool) (nh : NodeHeap),
      constructH fuel [[("a", .dref 1)], [("x", .dref 0)]] 0 dyn nh = Option.none ∧
      constructH fuel [[("a", .dref 1)], [("x", .dref 0)]] 1 dyn nh = Option.none) := by
  refine ⟨?_, ?_, ?_, ?_, ?_⟩
  · intro fuel dh addr a dyn k1 k2 nh rootA nh1 hda hkeys h
    exact constructH_links_sibling_drefs fuel dh addr a dyn k1 k2 nh rootA nh1
      hda hkeys h
  · simp [constructH, constructGo, constructList, heapSet, applyLitEvalH, odSet,
      normalizeKey, normChars, isAlnumAZ, litEval, litEvalCore, List.lookup]
  · simp [constructH, constructGo, constructList, heapSet, applyLitEvalH, odSet,
      normalizeKey, normChars, isAlnumAZ, litEval, litEvalCore, List.lookup]
  · simp [to_dictH, toDictGoH, toDictListH, outSet, odSet, List.lookup]
  · intro fuel
    induction fuel with
    | zero => intro dyn nh; exact ⟨by simp [constructH], by simp [constructH]⟩
    | succ f ih =>
      intro dyn nh
      constructor
      · have h2 := (ih dyn (nh ++ [⟨dyn, []⟩])).2
        simp [constructH, constructGo, List.lookup, h2]
      · have h1 := (ih dyn (nh ++ [⟨dyn, []⟩])).1
        simp [constructH, constructGo, List.lookup, h1]

/-- Witness for C7 amended: the general linking conjunct applied to the
concrete heap in which dictionary object `1` is shared between the keys
`a` and `b` of the root dictionary. -/
theorem c7_cycle_handling_amended_witness :
    ∃ n node,
      ([⟨true, [("a", .nref 1), ("b", .nref 1)]⟩,
        ⟨true, [("x", .raw (.int 5))]⟩] : NodeHeap).get? 0 = some node ∧
      node.entries.lookup (normalizeKey "a") = some (.nref n) ∧
      node.entries.lookup (normalizeKey "b") = some (.nref n) :=
  c7_cycle_handling_amended.1 10 [[("a", .dref 1), ("b", .dref 1)], [("x", .int 5)]]
    0 1 true "a" "b" [] 0
    [⟨true, [("a", .nref 1), ("b", .nref 1)]⟩, ⟨true, [("x", .raw (.int 5))]⟩]
    (by rfl) (by decide)
    (by simp [constructH, constructGo, constructList, heapSet, applyLitEvalH, odSet,
      normalizeKey, normChars, isAlnumAZ, litEval, litEvalCore, List.lookup])

end Helix
